import Mathlib

/-!
Shallow embedding of the Mutarjim-Pro translation pipeline core
(EPUB segmenter, translation queue, Gemini translator client,
reassembler, backup service), together with theorems settling the
specification claims against the code.

The definitions mirror the TypeScript sources:
  * `src/types.ts`                     — data model
  * `src/services/geminiService.ts`    — translator client and tag integrity
  * `src/services/epubService.ts`      — segmentation and reassembly walks
  * `src/services/db.ts`               — durable store operations
  * `src/hooks/useTranslationProcessor.ts` — worker failure handling
  * `src/services/backupService.ts`    — backup restore
-/

namespace Mutarjim

/-- `SegmentStatus` enum from `src/types.ts`. -/
inductive SegmentStatus where
  | PENDING
  | TRANSLATING
  | TRANSLATED
  | FAILED
  | SKIPPED
deriving DecidableEq, Repr

/-- `AppState` enum from `src/types.ts` (the engine state). -/
inductive AppState where
  | IDLE
  | ANALYZING
  | TRANSLATING
  | PAUSED
  | QUOTA_PAUSED
  | COMPLETED
  | ERROR
deriving DecidableEq, Repr

/-- `Segment` interface from `src/types.ts`.  `retryCount` is a machine
number used only as a counter, embedded as `Nat`; the optional `error`
field is an `Option String`. -/
structure Segment where
  id : String
  fileHref : String
  batchIndex : Nat
  originalHtml : String
  translatedHtml : String
  status : SegmentStatus
  retryCount : Nat
  error : Option String
deriving DecidableEq, Repr

/-- `ProjectData` interface from `src/types.ts`, restricted to the fields
the claims are about (blob fields and timestamps are opaque to the
pipeline logic and are not modelled). -/
structure ProjectData where
  id : String
  title : String
  author : String
  totalSegments : Nat
  translatedSegments : Nat
deriving DecidableEq, Repr

/-! ## Durable store (`src/services/db.ts`, shipped as `src/unnamed/part_004`)

The IndexedDB store has a single project record and a segments table
keyed by `id` with a secondary index on `status`.  The store is embedded
as an explicit record; `put` on the segments table replaces the record
with the same key, or inserts it when absent. -/

/-- The durable store: the single project record plus the segments table.
The segments table is kept as a list; `id` is the primary key. -/
structure DB where
  project : Option ProjectData
  segments : List Segment
deriving DecidableEq, Repr

/-- IndexedDB `put` on the `segments` store (keyPath `id`): replace the
record with the same key, or append when no record has that key. -/
def putSegment (l : List Segment) (s : Segment) : List Segment :=
  if l.any (fun t => t.id == s.id) then
    l.map (fun t => if t.id = s.id then s else t)
  else l ++ [s]

/-- `countFromIndex('segments', 'by-status', TRANSLATED)`. -/
def countTranslated (l : List Segment) : Nat :=
  (l.filter (fun s => s.status == SegmentStatus.TRANSLATED)).length

/-- `dbService.updateSegment` (part_004 lines 70–86): put the segment;
when its status is `TRANSLATED`, recompute the project's
`translatedSegments` from the authoritative count of `TRANSLATED`
segments and store the project. -/
def updateSegment (db : DB) (seg : Segment) : DB :=
  let segs := putSegment db.segments seg
  if seg.status = SegmentStatus.TRANSLATED then
    match db.project with
    | some p =>
        { project := some { p with translatedSegments := countTranslated segs },
          segments := segs }
    | none => { db with segments := segs }
  else { db with segments := segs }

/-- The worker's success path (`useTranslationProcessor.ts` lines 74–86):
store the translated markup, set status `TRANSLATED`, clear the error,
and write the segment through `dbService.updateSegment`. -/
def completeSegment (db : DB) (seg : Segment) (translated : String) : DB :=
  updateSegment db
    { seg with
      translatedHtml := translated
      status := SegmentStatus.TRANSLATED
      error := none }

/-- `dbService.getPendingSegment` (part_004 lines 56–68): the first
segment with status `PENDING`, else the first with status `FAILED`. -/
def getPendingSegment (l : List Segment) : Option Segment :=
  match l.find? (fun s => s.status == SegmentStatus.PENDING) with
  | some s => some s
  | none => l.find? (fun s => s.status == SegmentStatus.FAILED)

/-- Modelled from the spec: `dbService.getAndMarkPendingSegment`, the
`claimNext` operation the worker loop calls, is absent from the sources
(only its caller and the selection helper `getPendingSegment` are
present).  Spec §4.3: "Atomically selects one segment, preferring
PENDING over FAILED, marks it TRANSLATING, and returns it.  Returns
nothing if none available."  The selection is the in-source
`getPendingSegment`; the marking writes the selected segment back with
status `TRANSLATING`. -/
def getAndMarkPendingSegment (db : DB) : Option Segment × DB :=
  match getPendingSegment db.segments with
  | none => (none, db)
  | some s =>
      (some s,
        { db with
          segments := putSegment db.segments { s with status := SegmentStatus.TRANSLATING } })

/-- The per-segment reset performed by `retrySkippedSegments`. -/
def resetSegment (s : Segment) : Segment :=
  { s with status := SegmentStatus.PENDING, retryCount := 0, error := none }

/-- `dbService.retrySkippedSegments` (part_004 lines 107–124): fetch all
`SKIPPED` segments from the status index, then put each one back with
status `PENDING`, retry count 0 and the error cleared.  Returns the
number of segments reset. -/
def retrySkippedSegments (db : DB) : DB × Nat :=
  let skipped := db.segments.filter (fun s => s.status == SegmentStatus.SKIPPED)
  let segs := skipped.foldl (fun acc s => putSegment acc (resetSegment s)) db.segments
  ({ db with segments := segs }, skipped.length)

/-- A segment just put is in the table. -/
theorem putSegment_self_mem (l : List Segment) (s : Segment) :
    s ∈ putSegment l s := by
  unfold putSegment
  split
  · next h =>
      rcases List.any_eq_true.mp h with ⟨t, ht, hid⟩
      exact List.mem_map.mpr ⟨t, ht, by simp [beq_iff_eq] at hid; simp [hid]⟩
  · exact List.mem_append.mpr (Or.inr (List.mem_singleton.mpr rfl))

/-- C3: completing a segment stores it with status `TRANSLATED`, the
translated markup and a cleared error, and sets the stored project's
`translatedSegments` to the authoritative count of `TRANSLATED` segments
in the resulting table (not a blind increment). -/
theorem complete_segment_authoritative_count (db : DB) (seg : Segment)
    (translated : String) (p : ProjectData) (hp : db.project = some p) :
    (∃ s' ∈ (completeSegment db seg translated).segments,
        s'.id = seg.id ∧ s'.status = SegmentStatus.TRANSLATED ∧
        s'.translatedHtml = translated ∧ s'.error = none) ∧
    (∃ p', (completeSegment db seg translated).project = some p' ∧
        p'.translatedSegments = countTranslated (completeSegment db seg translated).segments) := by
  unfold completeSegment updateSegment
  simp only [hp]
  constructor
  · exact ⟨_, putSegment_self_mem db.segments _, rfl, rfl, rfl, rfl⟩
  · exact ⟨_, rfl, rfl⟩

/-- Witness for `complete_segment_authoritative_count` at a concrete
store. -/
theorem complete_segment_authoritative_count_witness :
    let seg : Segment :=
      { id := "ch1.xhtml::0", fileHref := "ch1.xhtml", batchIndex := 0,
        originalHtml := "<p>Hi</p>", translatedHtml := "", status := SegmentStatus.TRANSLATING,
        retryCount := 0, error := some "old" }
    let p : ProjectData :=
      { id := "current-project", title := "T", author := "A",
        totalSegments := 1, translatedSegments := 0 }
    let db : DB := { project := some p, segments := [seg] }
    (∃ s' ∈ (completeSegment db seg "<p>X</p>").segments,
        s'.id = seg.id ∧ s'.status = SegmentStatus.TRANSLATED ∧
        s'.translatedHtml = "<p>X</p>" ∧ s'.error = none) ∧
    (∃ p', (completeSegment db seg "<p>X</p>").project = some p' ∧
        p'.translatedSegments = countTranslated (completeSegment db seg "<p>X</p>").segments) :=
  complete_segment_authoritative_count _ _ _ _ rfl

/-- C6: the claim operation prefers `PENDING` over `FAILED` (a `FAILED`
segment is selected only when no `PENDING` segment exists), marks the
selected segment `TRANSLATING` in the store, and returns nothing exactly
when no `PENDING` or `FAILED` segment is available (leaving the store
untouched in that case). -/
theorem claim_next_prefers_pending (db : DB) :
    ((getAndMarkPendingSegment db).1 = none →
       (getAndMarkPendingSegment db).2 = db ∧
       ∀ s ∈ db.segments,
         s.status ≠ SegmentStatus.PENDING ∧ s.status ≠ SegmentStatus.FAILED) ∧
    (∀ seg, (getAndMarkPendingSegment db).1 = some seg →
       seg ∈ db.segments ∧
       (seg.status = SegmentStatus.PENDING ∨
         (seg.status = SegmentStatus.FAILED ∧
           ∀ t ∈ db.segments, t.status ≠ SegmentStatus.PENDING)) ∧
       ∃ s' ∈ (getAndMarkPendingSegment db).2.segments,
         s'.id = seg.id ∧ s'.status = SegmentStatus.TRANSLATING) := by
  unfold getAndMarkPendingSegment getPendingSegment
  rcases hP : db.segments.find? (fun s => s.status == SegmentStatus.PENDING) with _ | s
  · rcases hF : db.segments.find? (fun s => s.status == SegmentStatus.FAILED) with _ | s
    · simp only [hP, hF]
      refine ⟨fun _ => ⟨by trivial, fun s hs => ⟨?_, ?_⟩⟩, fun seg hseg => by simp at hseg⟩
      · have := List.find?_eq_none.mp hP s hs
        simpa [beq_iff_eq] using this
      · have := List.find?_eq_none.mp hF s hs
        simpa [beq_iff_eq] using this
    · simp only [hP, hF]
      refine ⟨fun h => by simp at h, fun seg hseg => ?_⟩
      simp only [Option.some.injEq] at hseg
      subst hseg
      refine ⟨List.mem_of_find?_eq_some hF, Or.inr ⟨?_, ?_⟩, ?_⟩
      · have := List.find?_some hF
        simpa [beq_iff_eq] using this
      · intro t ht
        have := List.find?_eq_none.mp hP t ht
        simpa [beq_iff_eq] using this
      · exact ⟨_, putSegment_self_mem db.segments _, rfl, rfl⟩
  · simp only [hP]
    refine ⟨fun h => by simp at h, fun seg hseg => ?_⟩
    simp only [Option.some.injEq] at hseg
    subst hseg
    refine ⟨List.mem_of_find?_eq_some hP, Or.inl ?_, ?_⟩
    · have := List.find?_some hP
      simpa [beq_iff_eq] using this
    · exact ⟨_, putSegment_self_mem db.segments _, rfl, rfl⟩

/-- Witness for `claim_next_prefers_pending`: although its hypotheses are
only the universally quantified store, we instantiate it at a concrete
store with one `PENDING` and one `FAILED` segment and read off the
conclusions. -/
theorem claim_next_prefers_pending_witness :
    let sF : Segment :=
      { id := "a::0", fileHref := "a", batchIndex := 0, originalHtml := "<p>x</p>",
        translatedHtml := "", status := SegmentStatus.FAILED, retryCount := 1, error := some "e" }
    let sP : Segment :=
      { id := "a::1", fileHref := "a", batchIndex := 1, originalHtml := "<p>y</p>",
        translatedHtml := "", status := SegmentStatus.PENDING, retryCount := 0, error := none }
    let db : DB := { project := none, segments := [sF, sP] }
    ∀ seg, (getAndMarkPendingSegment db).1 = some seg →
       seg ∈ db.segments ∧
       (seg.status = SegmentStatus.PENDING ∨
         (seg.status = SegmentStatus.FAILED ∧
           ∀ t ∈ db.segments, t.status ≠ SegmentStatus.PENDING)) ∧
       ∃ s' ∈ (getAndMarkPendingSegment db).2.segments,
         s'.id = seg.id ∧ s'.status = SegmentStatus.TRANSLATING :=
  (claim_next_prefers_pending _).2

/-- `putSegment` with a key already present in the table is a pointwise
replacement. -/
theorem putSegment_of_key_mem (l : List Segment) (s t0 : Segment)
    (ht0 : t0 ∈ l) (hid : t0.id = s.id) :
    putSegment l s = l.map (fun t => if t.id = s.id then s else t) := by
  unfold putSegment
  rw [if_pos]
  exact List.any_eq_true.mpr ⟨t0, ht0, by simp [hid]⟩

/-- Folding the `retrySkippedSegments` write-back loop over a list `S` of
segments taken from a table with unique keys replaces exactly the table
entries whose key occurs in `S` by their reset. -/
theorem foldl_put_reset (S : List Segment) :
    ∀ acc : List Segment,
      (acc.map Segment.id).Nodup →
      (∀ s ∈ S, s ∈ acc) →
      (S.map Segment.id).Nodup →
      S.foldl (fun a s => putSegment a (resetSegment s)) acc
        = acc.map (fun t => if t.id ∈ S.map Segment.id then resetSegment t else t) := by
  induction S with
  | nil =>
      intro acc _ _ _
      simp
  | cons s S ih =>
      intro acc hacc hmem hS
      have hinj := List.inj_on_of_nodup_map hacc
      have hsacc : s ∈ acc := hmem s (List.mem_cons_self _ _)
      have hput : putSegment acc (resetSegment s)
          = acc.map (fun t => if t.id = s.id then resetSegment t else t) := by
        rw [putSegment_of_key_mem acc (resetSegment s) s hsacc rfl]
        apply List.map_congr_left
        intro t ht
        by_cases h : t.id = s.id
        · have : t = s := hinj ht hsacc h
          simp [resetSegment, h, this]
        · simp [resetSegment, h]
      have hids : (acc.map (fun t => if t.id = s.id then resetSegment t else t)).map Segment.id
          = acc.map Segment.id := by
        rw [List.map_map]
        apply List.map_congr_left
        intro t _
        by_cases h : t.id = s.id <;> simp [resetSegment, h]
      have hsid : s.id ∉ S.map Segment.id := (List.nodup_cons.mp (by simpa using hS)).1
      have hmem' : ∀ u ∈ S, u ∈ acc.map (fun t => if t.id = s.id then resetSegment t else t) := by
        intro u hu
        have huacc : u ∈ acc := hmem u (List.mem_cons_of_mem _ hu)
        have huid : u.id ≠ s.id := by
          intro h
          exact hsid (h ▸ List.mem_map.mpr ⟨u, hu, rfl⟩)
        exact List.mem_map.mpr ⟨u, huacc, by simp [huid]⟩
      rw [List.foldl_cons, hput, ih _ (by rw [hids]; exact hacc) hmem'
            (List.nodup_cons.mp (by simpa using hS)).2, List.map_map]
      apply List.map_congr_left
      intro t ht
      by_cases h : t.id = s.id
      · simp only [Function.comp_apply, if_pos h]
        have h1 : (resetSegment t).id ∉ S.map Segment.id := by
          simpa [resetSegment, h] using hsid
        simp [h1, List.mem_cons, h]
      · simp only [Function.comp_apply, if_neg h]
        by_cases h2 : t.id ∈ S.map Segment.id <;> simp [h2, List.mem_cons, h]

/-- C7: `retrySkippedSegments` maps every `SKIPPED` segment to status
`PENDING` with retry count 0 and a cleared error, leaves every other
segment (and the table order) completely unchanged, and returns the
number of `SKIPPED` segments.  The hypothesis is the key invariant of
the IndexedDB `segments` store: segment ids are unique. -/
theorem retry_skipped_resets_only_skipped (db : DB)
    (hids : (db.segments.map Segment.id).Nodup) :
    (retrySkippedSegments db).1.segments
      = db.segments.map
          (fun s => if s.status = SegmentStatus.SKIPPED then resetSegment s else s) ∧
    (retrySkippedSegments db).2
      = (db.segments.filter (fun s => s.status == SegmentStatus.SKIPPED)).length := by
  have hinj := List.inj_on_of_nodup_map hids
  constructor
  · show (db.segments.filter (fun s => s.status == SegmentStatus.SKIPPED)).foldl
        (fun acc s => putSegment acc (resetSegment s)) db.segments = _
    rw [foldl_put_reset _ db.segments hids
          (fun s hs => (List.mem_filter.mp hs).1)
          (List.Nodup.sublist (List.Sublist.map _ (List.filter_sublist _)) hids)]
    apply List.map_congr_left
    intro t ht
    have hiff : t.id ∈ (db.segments.filter
          (fun s => s.status == SegmentStatus.SKIPPED)).map Segment.id
        ↔ t.status = SegmentStatus.SKIPPED := by
      constructor
      · intro h
        rcases List.mem_map.mp h with ⟨u, hu, huid⟩
        rcases List.mem_filter.mp hu with ⟨huacc, hust⟩
        have : u = t := hinj huacc ht huid
        subst this
        simpa [beq_iff_eq] using hust
      · intro h
        exact List.mem_map.mpr ⟨t, List.mem_filter.mpr ⟨ht, by simp [h]⟩, rfl⟩
    by_cases h : t.status = SegmentStatus.SKIPPED
    · rw [if_pos (hiff.mpr h), if_pos h]
    · rw [if_neg (fun hc => h (hiff.mp hc)), if_neg h]
  · rfl

/-- Witness for `retry_skipped_resets_only_skipped` at a concrete store
with one `SKIPPED` and one `FAILED` segment. -/
theorem retry_skipped_resets_only_skipped_witness :
    let s0 : Segment :=
      { id := "a::0", fileHref := "a", batchIndex := 0, originalHtml := "<p>x</p>",
        translatedHtml := "", status := SegmentStatus.SKIPPED, retryCount := 3, error := some "e" }
    let s1 : Segment :=
      { id := "a::1", fileHref := "a", batchIndex := 1, originalHtml := "<p>y</p>",
        translatedHtml := "", status := SegmentStatus.FAILED, retryCount := 1, error := some "f" }
    let db : DB := { project := none, segments := [s0, s1] }
    (retrySkippedSegments db).1.segments
      = db.segments.map
          (fun s => if s.status = SegmentStatus.SKIPPED then resetSegment s else s) ∧
    (retrySkippedSegments db).2
      = (db.segments.filter (fun s => s.status == SegmentStatus.SKIPPED)).length :=
  retry_skipped_resets_only_skipped _ (by decide)

/-! ## Worker failure handling (`src/hooks/useTranslationProcessor.ts`)

The `catch` block of the worker loop (lines 88–121) classifies the error
as quota / non-quota and updates the segment and the engine state.  The
surrounding mutable context (`appState` set through `setAppState`, and
the closure variable `isQuotaHit`) is embedded as an explicit record. -/

/-- The engine-side mutable context seen by a worker: the React app state
and the `isQuotaHit` closure flag of `processQueue`. -/
structure EngineCtx where
  appState : AppState
  isQuotaHit : Bool
deriving DecidableEq, Repr

/-- The segment update performed by the worker's `catch` block, together
with the engine-context update.  Mirrors
`src/hooks/useTranslationProcessor.ts` lines 88–121:

* quota error: `segment.status = PENDING` (retry count and error text are
  not touched); if the quota flag was not yet set, it is set and the app
  state becomes `QUOTA_PAUSED`;
* other error: `status = FAILED`, `error = message`,
  `retryCount = retryCount + 1`, and then `status = SKIPPED` when
  `retryCount >= 3`. -/
def handleTranslationFailure (ctx : EngineCtx) (seg : Segment)
    (errMsg : String) (isQuota : Bool) : EngineCtx × Segment :=
  if isQuota then
    let ctx' := if ctx.isQuotaHit then ctx
      else { appState := AppState.QUOTA_PAUSED, isQuotaHit := true }
    (ctx', { seg with status := SegmentStatus.PENDING })
  else
    let seg1 : Segment :=
      { seg with
        status := SegmentStatus.FAILED
        error := some errMsg
        retryCount := seg.retryCount + 1 }
    let seg2 := if seg1.retryCount ≥ 3 then
        { seg1 with status := SegmentStatus.SKIPPED }
      else seg1
    (ctx, seg2)

/-- C4: a quota-classified failure reverts the segment to `PENDING`,
leaves its retry count unchanged, and the engine state ends up
`QUOTA_PAUSED`.  The hypothesis records the loop invariant of
`processQueue`: whenever the `isQuotaHit` flag is already set, the app
state has already been moved to `QUOTA_PAUSED`. -/
theorem quota_failure_reverts_to_pending (ctx : EngineCtx) (seg : Segment)
    (errMsg : String)
    (hinv : ctx.isQuotaHit = true → ctx.appState = AppState.QUOTA_PAUSED) :
    (handleTranslationFailure ctx seg errMsg true).2.status = SegmentStatus.PENDING ∧
    (handleTranslationFailure ctx seg errMsg true).2.retryCount = seg.retryCount ∧
    (handleTranslationFailure ctx seg errMsg true).1.appState = AppState.QUOTA_PAUSED := by
  unfold handleTranslationFailure
  by_cases h : ctx.isQuotaHit
  · simp [h, hinv h]
  · simp [h]

/-- Witness for `quota_failure_reverts_to_pending` at a concrete context
and segment. -/
theorem quota_failure_reverts_to_pending_witness :
    let ctx : EngineCtx := { appState := AppState.TRANSLATING, isQuotaHit := false }
    let seg : Segment :=
      { id := "ch1.xhtml::0", fileHref := "ch1.xhtml", batchIndex := 0,
        originalHtml := "<p>Hi</p>", translatedHtml := "", status := SegmentStatus.TRANSLATING,
        retryCount := 0, error := none }
    (handleTranslationFailure ctx seg "429 rate limit" true).2.status = SegmentStatus.PENDING ∧
    (handleTranslationFailure ctx seg "429 rate limit" true).2.retryCount = seg.retryCount ∧
    (handleTranslationFailure ctx seg "429 rate limit" true).1.appState = AppState.QUOTA_PAUSED :=
  quota_failure_reverts_to_pending _ _ _ (by intro h; simp at h)

/-- C5: a non-quota failure increments the retry count by exactly one and
sets the status to `SKIPPED` when the new count is at least 3, `FAILED`
otherwise; the engine context is untouched.  In particular the first
failure of a fresh segment (`retryCount = 0`) leaves `retryCount = 1` and
status `FAILED`. -/
theorem nonquota_failure_increments_retry (ctx : EngineCtx) (seg : Segment)
    (errMsg : String) :
    (handleTranslationFailure ctx seg errMsg false).2.retryCount = seg.retryCount + 1 ∧
    (handleTranslationFailure ctx seg errMsg false).2.status =
      (if seg.retryCount + 1 ≥ 3 then SegmentStatus.SKIPPED else SegmentStatus.FAILED) ∧
    (handleTranslationFailure ctx seg errMsg false).1 = ctx ∧
    (seg.retryCount = 0 →
      (handleTranslationFailure ctx seg errMsg false).2.retryCount = 1 ∧
      (handleTranslationFailure ctx seg errMsg false).2.status = SegmentStatus.FAILED) := by
  unfold handleTranslationFailure
  by_cases h : seg.retryCount + 1 ≥ 3
  · refine ⟨by simp [h], by simp [h], by simp, ?_⟩
    intro h0
    omega
  · refine ⟨by simp [h], by simp [h], by simp, ?_⟩
    intro h0
    simp [h, h0]

/-- Witness for `nonquota_failure_increments_retry` at a concrete fresh
segment. -/
theorem nonquota_failure_increments_retry_witness :
    let ctx : EngineCtx := { appState := AppState.TRANSLATING, isQuotaHit := false }
    let seg : Segment :=
      { id := "ch1.xhtml::0", fileHref := "ch1.xhtml", batchIndex := 0,
        originalHtml := "<p>Hi</p>", translatedHtml := "", status := SegmentStatus.TRANSLATING,
        retryCount := 0, error := none }
    (handleTranslationFailure ctx seg "timeout" false).2.retryCount = seg.retryCount + 1 ∧
    (handleTranslationFailure ctx seg "timeout" false).2.status =
      (if seg.retryCount + 1 ≥ 3 then SegmentStatus.SKIPPED else SegmentStatus.FAILED) ∧
    (handleTranslationFailure ctx seg "timeout" false).1 = ctx ∧
    (seg.retryCount = 0 →
      (handleTranslationFailure ctx seg "timeout" false).2.retryCount = 1 ∧
      (handleTranslationFailure ctx seg "timeout" false).2.status = SegmentStatus.FAILED) :=
  nonquota_failure_increments_retry _ _ _

/-! ## String helpers with JavaScript semantics

`String.prototype.includes`, `toLowerCase`, `startsWith`-style tests are
embedded as executable functions over the character list of a string. -/

/-- `pre` is a prefix of `l`. -/
def listStartsWith : List Char → List Char → Bool
  | _, [] => true
  | [], _ :: _ => false
  | a :: l, b :: p => a == b && listStartsWith l p

/-- `sub` occurs contiguously inside `l` (JS `String.prototype.includes`
on char lists). -/
def listHasInfix : List Char → List Char → Bool
  | [], sub => sub.isEmpty
  | a :: t, sub => listStartsWith (a :: t) sub || listHasInfix t sub

/-- JS `s.includes(sub)`. -/
def strIncludes (s sub : String) : Bool :=
  listHasInfix s.data sub.data

/-- JS `s.toLowerCase()` (ASCII case folding, like `Char.toLower`). -/
def jsToLowerCase (s : String) : String :=
  String.mk (s.data.map Char.toLower)

theorem listStartsWith_refl : ∀ l : List Char, listStartsWith l l = true := by
  intro l
  induction l with
  | nil => rfl
  | cons a t ih => simp [listStartsWith, ih]

theorem strIncludes_refl (s : String) : strIncludes s s = true := by
  unfold strIncludes
  cases h : s.data with
  | nil => rfl
  | cons a t => simp [listHasInfix, ← h, listStartsWith_refl]

/-! ## Cover recognition (`src/services/epubService.ts`)

The Reader (`parseAndSegment`, lines 55–59) and the Reassembler
(`reassembleEpub`, line 532) each scan the manifest for the cover item. -/

/-- A manifest `<item>` as seen through `getAttribute`. -/
structure ManifestItem where
  id : Option String
  properties : Option String
  href : Option String
deriving DecidableEq, Repr

/-- Reader cover rule (`parseAndSegment` lines 55–59):
`id?.toLowerCase() || ''` contains "cover", or `properties || ''`
contains "cover-image". -/
def readerCoverPred (item : ManifestItem) : Bool :=
  strIncludes ((item.id.map jsToLowerCase).getD "") "cover"
    || strIncludes (item.properties.getD "") "cover-image"

/-- Reassembler cover rule (`reassembleEpub` line 532):
`id?.toLowerCase().includes('cover') || properties === 'cover-image'`. -/
def reassemblerCoverPred (item : ManifestItem) : Bool :=
  (match item.id with
   | some i => strIncludes (jsToLowerCase i) "cover"
   | none => false)
    || (item.properties == some "cover-image")

/-- The Reader's cover lookup: first manifest item matching its rule. -/
def findCoverItemReader (items : List ManifestItem) : Option ManifestItem :=
  items.find? readerCoverPred

/-- The Reassembler's cover lookup: first manifest item matching its
rule. -/
def findCoverItemReassembler (items : List ManifestItem) : Option ManifestItem :=
  items.find? reassemblerCoverPred

/-- C8 counterexample: on a manifest whose single item carries
`properties="cover-image svg"`, the Reader recognises the item as the
cover (containment test) but the Reassembler does not (strict equality
test), so the two rules do not recognise the same item. -/
theorem cover_rule_counterexample :
    findCoverItemReader
        [{ id := some "img1", properties := some "cover-image svg", href := some "cover.jpg" }]
      ≠ findCoverItemReassembler
        [{ id := some "img1", properties := some "cover-image svg", href := some "cover.jpg" }] := by
  decide

theorem find?_congr_on {α : Type} (p q : α → Bool) :
    ∀ l : List α, (∀ x ∈ l, p x = q x) → l.find? p = l.find? q := by
  intro l
  induction l with
  | nil => intro _; rfl
  | cons a t ih =>
      intro h
      rw [List.find?_cons, List.find?_cons, h a (List.mem_cons_self _ _)]
      cases hq : q a
      · simp only [ih (fun x hx => h x (List.mem_cons_of_mem _ hx))]
      · rfl

/-- C8 (amended): the Reassembler's cover rule tests the `properties`
attribute for strict equality with `cover-image` where the Reader tests
containment; on every manifest in which an item's properties attribute
contains `cover-image` only by being exactly `cover-image`, the two
rules recognise the same item. -/
theorem cover_rule_agreement (items : List ManifestItem)
    (h : ∀ item ∈ items, ∀ p, item.properties = some p →
        strIncludes p "cover-image" = true → p = "cover-image") :
    findCoverItemReader items = findCoverItemReassembler items := by
  unfold findCoverItemReader findCoverItemReassembler
  apply find?_congr_on
  intro item hitem
  unfold readerCoverPred reassemblerCoverPred
  have hid : strIncludes ((item.id.map jsToLowerCase).getD "") "cover"
      = (match item.id with
         | some i => strIncludes (jsToLowerCase i) "cover"
         | none => false) := by
    cases item.id with
    | none => rfl
    | some i => rfl
  have hprops : strIncludes (item.properties.getD "") "cover-image"
      = (item.properties == some "cover-image") := by
    cases hp : item.properties with
    | none => rfl
    | some p =>
        simp only [Option.getD_some]
        cases hinc : strIncludes p "cover-image"
        · have hne : p ≠ "cover-image" := by
            intro hcontra
            rw [hcontra] at hinc
            rw [strIncludes_refl] at hinc
            exact Bool.false_ne_true hinc.symm
          simp [hne]
        · have := h item hitem p hp hinc
          simp [this]
  rw [hid, hprops]

/-- Witness for `cover_rule_agreement` at a concrete manifest whose cover
item is recognised by its id. -/
theorem cover_rule_agreement_witness :
    findCoverItemReader
        [{ id := some "Cover-Img", properties := none, href := some "c.jpg" }]
      = findCoverItemReassembler
        [{ id := some "Cover-Img", properties := none, href := some "c.jpg" }] :=
  cover_rule_agreement _ (by
    intro item hitem p hp hinc
    simp only [List.mem_singleton] at hitem
    subst hitem
    simp at hp)

/-! ## Backup restore (`src/services/backupService.ts`)

`restoreBackup` (lines 63–122) validates the uploaded bundle and only
then wipes and rewrites the store.  `JSON.parse` is an external library
call, embedded as parser parameters. -/

/-- A zip-entry payload; its bytes are opaque to the restore logic. -/
structure Blob where
  bytes : List Nat
deriving DecidableEq, Repr

/-- The parse of `project.json`: `projectData` is the wrapped project
when the bundle is a current-format one; `id` is the root object's `id`
field (its JS truthiness detects legacy bundles); `selfProject` is the
root object reinterpreted as a project, which is what the legacy path
stores. -/
structure MetaJson where
  projectData : Option ProjectData
  id : Option String
  selfProject : ProjectData
deriving DecidableEq, Repr

/-- The entries read from the uploaded backup zip (`restoreBackup`
lines 63–75); `zipOk = false` when `JSZip.loadAsync` rejects. -/
structure BackupBundle where
  zipOk : Bool
  sourceEpub : Option Blob
  projectJson : Option String
  segmentsJson : Option String
  customCover : Option Blob
deriving DecidableEq, Repr

/-- JS truthiness of `meta.id`. -/
def truthyId : Option String → Bool
  | none => false
  | some s => !(s == "")

/-- `backupService.restoreBackup` (lines 63–122).  Returns the store
after the call together with the error message when the call throws.
All validation (zip readability, required entries, JSON parses, project
metadata shape, including the legacy fallback `meta.projectData ??
(meta.id ? meta : null)`) happens before the store is touched; only the
success path wipes the store and writes the reconstructed project (with
recomputed totals) and the segment list. -/
def restoreBackup (parseMeta : String → Option MetaJson)
    (parseSegments : String → Option (List Segment))
    (b : BackupBundle) (db : DB) : DB × Option String :=
  if !b.zipOk then
    (db, some "Invalid file format. Please ensure you are uploading a valid .mtj backup file.")
  else
    match b.projectJson with
    | none => (db, some "Invalid Backup: Missing project metadata (project.json).")
    | some projectJsonStr =>
      if projectJsonStr == "" then
        (db, some "Invalid Backup: Missing project metadata (project.json).")
      else
        match b.segmentsJson with
        | none => (db, some "Invalid Backup: Missing translation segments (segments.json).")
        | some segmentsJsonStr =>
          if segmentsJsonStr == "" then
            (db, some "Invalid Backup: Missing translation segments (segments.json).")
          else
            match b.sourceEpub with
            | none => (db, some "Invalid Backup: Missing source EPUB file (source.epub).")
            | some _ =>
              match parseMeta projectJsonStr, parseSegments segmentsJsonStr with
              | some meta, some segments =>
                  let projectData : Option ProjectData :=
                    match meta.projectData with
                    | some pd => some pd
                    | none => if truthyId meta.id then some meta.selfProject else none
                  match projectData with
                  | none => (db, some "Invalid Backup: Malformed project metadata.")
                  | some pd =>
                      let actualTranslatedCount :=
                        (segments.filter (fun s => s.status == SegmentStatus.TRANSLATED)).length
                      let project : ProjectData :=
                        { pd with
                          totalSegments := segments.length
                          translatedSegments := actualTranslatedCount }
                      ({ project := some { project with id := "current-project" },
                         segments := segments.foldl putSegment [] }, none)
              | _, _ => (db, some "Corrupted backup data: Unable to parse JSON metadata.")

/-- C9: `restoreBackup` is atomic with respect to failure — whenever it
returns an error the store is exactly the original one; every structural
problem (unreadable zip, missing `source.epub`, `project.json` or
`segments.json`, unparsable JSON payloads, malformed project metadata)
produces an error; and a structurally valid legacy bundle whose
`project.json` root is the project object itself (no `projectData`
wrapper, truthy `id`) restores successfully. -/
theorem restore_backup_atomic (parseMeta : String → Option MetaJson)
    (parseSegments : String → Option (List Segment))
    (b : BackupBundle) (db : DB) :
    ((restoreBackup parseMeta parseSegments b db).2.isSome →
        (restoreBackup parseMeta parseSegments b db).1 = db) ∧
    ((b.zipOk = false ∨ b.projectJson = none ∨ b.segmentsJson = none ∨
        b.sourceEpub = none ∨
        (∃ pj, b.projectJson = some pj ∧ parseMeta pj = none) ∨
        (∃ sj, b.segmentsJson = some sj ∧ parseSegments sj = none) ∨
        (∃ pj meta, b.projectJson = some pj ∧ parseMeta pj = some meta ∧
            meta.projectData = none ∧ truthyId meta.id = false)) →
        (restoreBackup parseMeta parseSegments b db).2.isSome) ∧
    (∀ pj sj meta segments,
        b.zipOk = true → b.projectJson = some pj → pj ≠ "" →
        b.segmentsJson = some sj → sj ≠ "" →
        (∃ blob, b.sourceEpub = some blob) →
        parseMeta pj = some meta → parseSegments sj = some segments →
        meta.projectData = none → truthyId meta.id = true →
        (restoreBackup parseMeta parseSegments b db).2 = none) := by
  obtain ⟨zipOk, sourceEpub, projectJson, segmentsJson, customCover⟩ := b
  refine ⟨?_, ?_, ?_⟩
  · intro hsome
    cases zipOk
    · rfl
    · rcases projectJson with _ | pj
      · rfl
      · by_cases hpj : pj == ""
        · simp only [restoreBackup, hpj]
          simp [hpj]
        · rcases segmentsJson with _ | sj
          · simp only [restoreBackup]
            simp [hpj]
          · by_cases hsj : sj == ""
            · simp only [restoreBackup]
              simp [hpj, hsj]
            · rcases sourceEpub with _ | blob
              · simp only [restoreBackup]
                simp [hpj, hsj]
              · rcases hm : parseMeta pj with _ | meta
                · simp only [restoreBackup]
                  simp [hpj, hsj, hm]
                · rcases hs : parseSegments sj with _ | segs
                  · simp only [restoreBackup]
                    simp [hpj, hsj, hm, hs]
                  · rcases hpd : meta.projectData with _ | pd
                    · by_cases hid : truthyId meta.id
                      · exfalso
                        simp only [restoreBackup] at hsome
                        simp [hpj, hsj, hm, hs, hpd, hid] at hsome
                      · simp only [restoreBackup]
                        simp [hpj, hsj, hm, hs, hpd, hid]
                    · exfalso
                      simp only [restoreBackup] at hsome
                      simp [hpj, hsj, hm, hs, hpd] at hsome
  · intro hbad
    cases zipOk
    · simp [restoreBackup]
    · rcases projectJson with _ | pj
      · simp [restoreBackup]
      · by_cases hpj : pj == ""
        · simp only [restoreBackup]
          simp [hpj]
        · rcases segmentsJson with _ | sj
          · simp only [restoreBackup]
            simp [hpj]
          · by_cases hsj : sj == ""
            · simp only [restoreBackup]
              simp [hpj, hsj]
            · rcases sourceEpub with _ | blob
              · simp only [restoreBackup]
                simp [hpj, hsj]
              · rcases hm : parseMeta pj with _ | meta
                · simp only [restoreBackup]
                  simp [hpj, hsj, hm]
                · rcases hs : parseSegments sj with _ | segs
                  · simp only [restoreBackup]
                    simp [hpj, hsj, hm, hs]
                  · rcases hpd : meta.projectData with _ | pd
                    · by_cases hid : truthyId meta.id
                      · exfalso
                        rcases hbad with h | h | h | h | ⟨x, hx, hx2⟩ | ⟨x, hx, hx2⟩ | ⟨x, m, hx, hx2, h3, h4⟩
                        · simp at h
                        · exact Option.some_ne_none pj h
                        · exact Option.some_ne_none sj h
                        · exact Option.some_ne_none blob h
                        · rw [Option.some.injEq] at hx
                          subst hx
                          rw [hm] at hx2
                          exact Option.some_ne_none meta hx2
                        · rw [Option.some.injEq] at hx
                          subst hx
                          rw [hs] at hx2
                          exact Option.some_ne_none segs hx2
                        · rw [Option.some.injEq] at hx
                          subst hx
                          rw [hm, Option.some.injEq] at hx2
                          subst hx2
                          rw [hid] at h4
                          simp at h4
                      · simp only [restoreBackup]
                        simp [hpj, hsj, hm, hs, hpd, hid]
                    · exfalso
                      rcases hbad with h | h | h | h | ⟨x, hx, hx2⟩ | ⟨x, hx, hx2⟩ | ⟨x, m, hx, hx2, h3, h4⟩
                      · simp at h
                      · exact Option.some_ne_none pj h
                      · exact Option.some_ne_none sj h
                      · exact Option.some_ne_none blob h
                      · rw [Option.some.injEq] at hx
                        subst hx
                        rw [hm] at hx2
                        exact Option.some_ne_none meta hx2
                      · rw [Option.some.injEq] at hx
                        subst hx
                        rw [hs] at hx2
                        exact Option.some_ne_none segs hx2
                      · rw [Option.some.injEq] at hx
                        subst hx
                        rw [hm, Option.some.injEq] at hx2
                        subst hx2
                        rw [hpd] at h3
                        exact Option.some_ne_none pd h3
  · intro pj sj meta segments hzip hpj hpjne hsj hsjne ⟨blob, hblob⟩ hm hs hpd hid
    simp only at hzip hpj hsj hblob
    subst hzip hpj hsj hblob
    have hpjb : (pj == "") = false := by
      simpa using hpjne
    have hsjb : (sj == "") = false := by
      simpa using hsjne
    simp only [restoreBackup]
    simp [hpjb, hsjb, hm, hs, hpd, hid]

/-- Witness for `restore_backup_atomic`: a concrete legacy bundle
restores successfully, and a concrete broken bundle (missing
`source.epub`) fails with the store untouched. -/
theorem restore_backup_atomic_witness :
    let p0 : ProjectData :=
      { id := "current-project", title := "T", author := "A",
        totalSegments := 0, translatedSegments := 0 }
    let parseMeta : String → Option MetaJson :=
      fun _ => some { projectData := none, id := some "current-project", selfProject := p0 }
    let parseSegments : String → Option (List Segment) := fun _ => some []
    let bundle : BackupBundle :=
      { zipOk := true, sourceEpub := some { bytes := [80, 75] },
        projectJson := some "legacy", segmentsJson := some "[]", customCover := none }
    let db : DB := { project := none, segments := [] }
    (restoreBackup parseMeta parseSegments bundle db).2 = none :=
  (restore_backup_atomic _ _ _ _).2.2 "legacy" "[]" _ []
    rfl rfl (by decide) rfl (by decide) ⟨_, rfl⟩ rfl rfl rfl rfl

/-! ## OPF metadata defaults (`src/services/epubService.ts` lines 31–44,
101–113) -/

/-- An XML element as observed through `getElementsByTagName` (qualified
name) and `getElementsByTagNameNS('*', ·)` (local name). -/
structure XmlElem where
  name : String
  localName : String
  text : String
deriving DecidableEq, Repr

/-- The `<metadata>` region of the OPF, as the list of its descendant
elements in document order (`none` when no metadata element exists). -/
structure OpfMetadata where
  children : List XmlElem
deriving DecidableEq, Repr

/-- `getMetaText` from `parseAndSegment` (lines 34–41): first match by
qualified tag name, then by namespace-local name, else null. -/
def getMetaText (metadata : Option OpfMetadata) (tagName : String) : Option String :=
  match metadata with
  | none => none
  | some m =>
    match m.children.find? (fun e => e.name == tagName) with
    | some e => some e.text
    | none =>
      match m.children.find? (fun e => e.localName == tagName) with
      | some e => some e.text
      | none => none

/-- JS `x || d` for a nullable string: the default replaces both null
and the empty string. -/
def jsOrDefault (o : Option String) (d : String) : String :=
  match o with
  | some s => if s == "" then d else s
  | none => d

/-- The project metadata constructed by `parseAndSegment`
(lines 43–44 and 101–113), restricted to the fields derived from the
OPF metadata region.  The construction is total: no failure path
depends on title or creator. -/
def buildProjectData (metadata : Option OpfMetadata) (segmentCount : Nat) : ProjectData :=
  { id := "current-project"
    title := jsOrDefault (getMetaText metadata "title") "Unknown Title"
    author := jsOrDefault (getMetaText metadata "creator") "Unknown Author"
    totalSegments := segmentCount
    translatedSegments := 0 }

/-- C10: a missing or empty title or creator element leaves the import
with the default project metadata: title "Unknown Title" and author
"Unknown Author" (and the construction itself never fails). -/
theorem missing_metadata_defaults (metadata : Option OpfMetadata) (n : Nat) :
    ((getMetaText metadata "title" = none ∨ getMetaText metadata "title" = some "") →
        (buildProjectData metadata n).title = "Unknown Title") ∧
    ((getMetaText metadata "creator" = none ∨ getMetaText metadata "creator" = some "") →
        (buildProjectData metadata n).author = "Unknown Author") := by
  constructor
  · intro h
    rcases h with h | h <;> simp [buildProjectData, jsOrDefault, h]
  · intro h
    rcases h with h | h <;> simp [buildProjectData, jsOrDefault, h]

/-- Witness for `missing_metadata_defaults`: an archive without a
metadata region imports with both defaults. -/
theorem missing_metadata_defaults_witness :
    (buildProjectData none 3).title = "Unknown Title" ∧
    (buildProjectData none 3).author = "Unknown Author" :=
  ⟨(missing_metadata_defaults none 3).1 (Or.inl rfl),
   (missing_metadata_defaults none 3).2 (Or.inl rfl)⟩

/-! ## Segmentation and reassembly walks (`src/services/epubService.ts`)

`segmentHtmlV2` (lines 117–204) cuts a parsed body into batches of
nodes; `traverseV2` + `processBatch` inside `reassembleEpub`
(lines 366–474) re-walk the body with the same classification rules and
splice translated markup at each batch flush.  The document model keeps
what the walks inspect: element tag and children, text data, and a
constructor for the node types both walks ignore.  Serialisation is a
single function standing for both `XMLSerializer.serializeToString` and
`outerHTML`, which agree on this attribute-free model. -/

/-- A parsed body node: element, text node, or any other node type
(comments, processing instructions), which both walks skip. -/
inductive XNode where
  | elem : String → List XNode → XNode
  | text : String → XNode
  | comment : String → XNode
deriving Repr

mutual

/-- Serialisation of one node (`serializeToString` / `outerHTML`). -/
def serializeNode : XNode → String
  | .elem tag cs => "<" ++ tag ++ ">" ++ serializeForest cs ++ "</" ++ tag ++ ">"
  | .text s => s
  | .comment s => "<!--" ++ s ++ "-->"

/-- Serialisation of a node list, concatenated in document order. -/
def serializeForest : List XNode → String
  | [] => ""
  | n :: ns => serializeNode n ++ serializeForest ns

end

mutual

/-- DOM `textContent`: concatenated text data of all descendants. -/
def textContent : XNode → String
  | .elem _ cs => textContentForest cs
  | .text s => s
  | .comment _ => ""

/-- `textContent` of a node list. -/
def textContentForest : List XNode → String
  | [] => ""
  | n :: ns => textContent n ++ textContentForest ns

end

/-- JS `String.prototype.trim` over the character list. -/
def jsTrim (s : String) : String :=
  String.mk (((s.data.dropWhile Char.isWhitespace).reverse.dropWhile Char.isWhitespace).reverse)

/-- `BLOCK_TAGS` (epubService.ts line 5). -/
def BLOCK_TAGS : List String :=
  ["p", "div", "table", "blockquote", "li", "h1", "h2", "h3", "h4", "h5", "h6",
   "section", "article", "aside", "main", "header", "footer"]

/-- `BREAKER_TAGS` (epubService.ts line 6). -/
def BREAKER_TAGS : List String := ["img", "hr", "pre", "svg", "figure"]

/-- `HEADER_TAGS` (epubService.ts line 7). -/
def HEADER_TAGS : List String := ["h1", "h2", "h3", "h4", "h5", "h6"]

/-- `BATCH_CHAR_LIMIT` (epubService.ts line 8). -/
def BATCH_CHAR_LIMIT : Nat := 6000

/-- `child.tagName.toLowerCase()` classified as block or breaker. -/
def isBlockOrBreakerTag (tag : String) : Bool :=
  BLOCK_TAGS.contains (jsToLowerCase tag) || BREAKER_TAGS.contains (jsToLowerCase tag)

/-- `Array.from(el.children).some(...)` over the element children. -/
def hasBlockChildren (children : List XNode) : Bool :=
  children.any fun c =>
    match c with
    | .elem t _ => isBlockOrBreakerTag t
    | _ => false

/-- `isTranslatableElement` — textually identical in `segmentHtmlV2`
(lines 143–153) and `traverseV2` (lines 442–450): a block-tag element
with non-empty trimmed text content and no block or breaker element
child. -/
def isTranslatableElement (tag : String) (children : List XNode) : Bool :=
  BLOCK_TAGS.contains (jsToLowerCase tag)
    && !(jsTrim (textContentForest children) == "")
    && !hasBlockChildren children

/-- Mutable state of the `segmentHtmlV2` walk: emitted batches, the
current batch, and the running `currentBatchLength`. -/
structure SegSt where
  batches : List (List XNode)
  cur : List XNode
  curLen : Nat
deriving Repr

/-- `flushBatch` (lines 125–141): emit the current batch when non-empty
and reset the accumulator. -/
def flushBatch (st : SegSt) : SegSt :=
  if st.cur.isEmpty then st
  else { batches := st.batches ++ [st.cur], cur := [], curLen := 0 }

/-- The segmenter's shared capture step (lines 173–178 and 187–193):
flush first when adding `h` characters would exceed the budget, then
push the node and add `h` to the running length. -/
def segPush (st : SegSt) (n : XNode) (h : Nat) : SegSt :=
  let st1 := if st.curLen + h > BATCH_CHAR_LIMIT then flushBatch st else st
  { st1 with cur := st1.cur ++ [n], curLen := st1.curLen + h }

mutual

/-- One step of the segmenter's `traverse` (lines 155–196). -/
def segNode (st : SegSt) (n : XNode) : SegSt :=
  match n with
  | .elem tag cs =>
      if BREAKER_TAGS.contains (jsToLowerCase tag) then flushBatch st
      else if HEADER_TAGS.contains (jsToLowerCase tag) then
        flushBatch { flushBatch st with cur := (flushBatch st).cur ++ [n] }
      else if isTranslatableElement tag cs then
        segPush st n (serializeNode n).length
      else segForest st cs
  | .text s =>
      if !(jsTrim s == "") then segPush st n s.length
      else st
  | .comment _ => st

/-- The segmenter's walk over a node list
(`Array.from(doc.body.childNodes).forEach(traverse)`). -/
def segForest (st : SegSt) (ns : List XNode) : SegSt :=
  match ns with
  | [] => st
  | n :: rest => segForest (segNode st n) rest

end

/-- The batches produced by `segmentHtmlV2` on a parsed body: walk every
body child, then the final flush (lines 198–201). -/
def segmentBatchesV2 (body : List XNode) : List (List XNode) :=
  (flushBatch (segForest { batches := [], cur := [], curLen := 0 } body)).batches

/-- `segmentHtmlV2` (lines 117–204): each flushed batch becomes one
`PENDING` segment whose `originalHtml` is the concatenated serialisation
of its captured nodes and whose batch index counts the flushes. -/
def segmentHtmlV2 (body : List XNode) (fileHref : String) : List Segment :=
  (segmentBatchesV2 body).enum.map fun p =>
    { id := fileHref ++ "::" ++ toString p.1
      fileHref := fileHref
      batchIndex := p.1
      originalHtml := serializeForest p.2
      translatedHtml := ""
      status := SegmentStatus.PENDING
      retryCount := 0
      error := none }

/-- Mutable state of the reassembler's `traverseV2`: the batches handed
to `processBatch` so far and the `currentBatchNodes` accumulator.  The
splice applied at each flush replaces the captured nodes inside the
output document; the state records the captured node sequences, which is
what determines the splice boundaries. -/
structure ReSt where
  batches : List (List XNode)
  cur : List XNode
deriving Repr

/-- `processBatch` (lines 370–431) restricted to its capture effect: a
non-empty `currentBatchNodes` becomes the next batch (and advances
`segmentIndex`); an empty one is skipped. -/
def processBatchCapture (st : ReSt) : ReSt :=
  if st.cur.isEmpty then st
  else { batches := st.batches ++ [st.cur], cur := [] }

/-- The per-node size used by `traverseV2`'s batch-size reduce
(lines 454, 467): `outerHTML.length` for elements, `textContent.length`
otherwise. -/
def nodeSize (n : XNode) : Nat :=
  match n with
  | .elem _ _ => (serializeNode n).length
  | .text s => s.length
  | .comment s => s.length

/-- `currentBatchNodes.reduce((acc, n) => acc + ..., 0)`. -/
def batchSize (cur : List XNode) : Nat := (cur.map nodeSize).sum

/-- The reassembler's shared capture step (lines 453–458 and 465–471):
recompute the batch size, flush when adding `h` characters would exceed
the budget and the accumulator is non-empty, then push the node. -/
def rePush (st : ReSt) (n : XNode) (h : Nat) : ReSt :=
  let st1 :=
    if batchSize st.cur + h > BATCH_CHAR_LIMIT && !st.cur.isEmpty then
      processBatchCapture st
    else st
  { st1 with cur := st1.cur ++ [n] }

mutual

/-- One step of the reassembler's `traverseV2` (lines 434–474). -/
def reNode (st : ReSt) (n : XNode) : ReSt :=
  match n with
  | .elem tag cs =>
      if BREAKER_TAGS.contains (jsToLowerCase tag) then processBatchCapture st
      else if HEADER_TAGS.contains (jsToLowerCase tag) then
        processBatchCapture
          { processBatchCapture st with cur := (processBatchCapture st).cur ++ [n] }
      else if isTranslatableElement tag cs then
        rePush st n (serializeNode n).length
      else reForest st cs
  | .text s =>
      if !(jsTrim s == "") then rePush st n s.length
      else st
  | .comment _ => st

/-- The reassembler's walk over a node list
(`Array.from(doc.body.childNodes).forEach(traverseV2)`). -/
def reForest (st : ReSt) (ns : List XNode) : ReSt :=
  match ns with
  | [] => st
  | n :: rest => reForest (reNode st n) rest

end

/-- The batches the reassembler re-captures from an unmodified body:
walk every body child, then the final `processBatch()` (line 510). -/
def reassembleBatchesV2 (body : List XNode) : List (List XNode) :=
  (processBatchCapture (reForest { batches := [], cur := [] } body)).batches

/-- The segmenter state determined by a reassembler state: the running
length is the recomputed size of the current batch. -/
def embedSt (r : ReSt) : SegSt :=
  { batches := r.batches, cur := r.cur, curLen := batchSize r.cur }

theorem processBatchCapture_cur_nil (r : ReSt) : (processBatchCapture r).cur = [] := by
  unfold processBatchCapture
  split
  · next h => exact List.isEmpty_iff.mp h
  · rfl

theorem batchSize_append_one (l : List XNode) (n : XNode) :
    batchSize (l ++ [n]) = batchSize l + nodeSize n := by
  simp [batchSize]

theorem flushBatch_embedSt (r : ReSt) :
    flushBatch (embedSt r) = embedSt (processBatchCapture r) := by
  cases hc : r.cur with
  | nil => simp [flushBatch, processBatchCapture, embedSt, hc]
  | cons a t => simp [flushBatch, processBatchCapture, embedSt, hc, batchSize]

theorem segPush_embedSt (r : ReSt) (n : XNode) (h : Nat) (hh : h = nodeSize n) :
    segPush (embedSt r) n h = embedSt (rePush r n h) := by
  subst hh
  unfold segPush rePush
  cases hc : r.cur with
  | nil =>
      simp [embedSt, hc, flushBatch, processBatchCapture, batchSize]
  | cons a t =>
      simp [embedSt, hc, flushBatch, processBatchCapture, batchSize]
      split <;> simp [hc, batchSize]

theorem headerFlush_embedSt (r : ReSt) (n : XNode) :
    flushBatch { flushBatch (embedSt r) with cur := (flushBatch (embedSt r)).cur ++ [n] }
      = embedSt (processBatchCapture
          { processBatchCapture r with cur := (processBatchCapture r).cur ++ [n] }) := by
  rw [flushBatch_embedSt]
  have hnil := processBatchCapture_cur_nil r
  simp [flushBatch, processBatchCapture, embedSt, hnil, batchSize]

mutual

/-- The segmenter's per-node step simulates the reassembler's per-node
step through `embedSt`: the same batches, the same current batch, and a
running length that equals the recomputed batch size. -/
theorem segNode_embedSt (r : ReSt) (n : XNode) :
    segNode (embedSt r) n = embedSt (reNode r n) := by
  cases n with
  | elem tag cs =>
      rw [segNode, reNode]
      by_cases hbr : BREAKER_TAGS.contains (jsToLowerCase tag) = true
      · rw [if_pos hbr, if_pos hbr, flushBatch_embedSt]
      · rw [if_neg hbr, if_neg hbr]
        by_cases hhd : HEADER_TAGS.contains (jsToLowerCase tag) = true
        · rw [if_pos hhd, if_pos hhd, headerFlush_embedSt]
        · rw [if_neg hhd, if_neg hhd]
          by_cases htr : isTranslatableElement tag cs = true
          · rw [if_pos htr, if_pos htr]
            exact segPush_embedSt r (XNode.elem tag cs) _ rfl
          · rw [if_neg htr, if_neg htr]
            exact segForest_embedSt r cs
  | text s =>
      rw [segNode, reNode]
      by_cases hne : (!(jsTrim s == "")) = true
      · rw [if_pos hne, if_pos hne]
        exact segPush_embedSt r (XNode.text s) _ rfl
      · rw [if_neg hne, if_neg hne]
  | comment s => rfl

/-- The walk-level simulation over a node list. -/
theorem segForest_embedSt (r : ReSt) (ns : List XNode) :
    segForest (embedSt r) ns = embedSt (reForest r ns) := by
  cases ns with
  | nil => rfl
  | cons n rest =>
      rw [segForest, reForest, segNode_embedSt r n]
      exact segForest_embedSt (reNode r n) rest

end

/-- C2: on any parsed body, the reassembler's re-walk of the unmodified
body (`traverseV2` plus `processBatch`) captures exactly the batches the
segmenter's walk (`segmentHtmlV2`) produced: the same number of batches
and, at each batch index, the same node sequence — so translated
fragments are spliced at exactly the boundaries chosen during
segmentation.  Consequently the segment list and the re-captured batches
correspond index by index. -/
theorem reassembler_walk_matches_segmenter (body : List XNode) :
    reassembleBatchesV2 body = segmentBatchesV2 body ∧
    ∀ fileHref,
      (segmentHtmlV2 body fileHref).map Segment.originalHtml
        = (reassembleBatchesV2 body).map serializeForest := by
  have hinit : ({ batches := [], cur := [], curLen := 0 } : SegSt)
      = embedSt { batches := [], cur := [] } := rfl
  have hmain : segmentBatchesV2 body = reassembleBatchesV2 body := by
    unfold segmentBatchesV2 reassembleBatchesV2
    rw [hinit, segForest_embedSt, flushBatch_embedSt]
    rfl
  refine ⟨hmain.symm, fun fileHref => ?_⟩
  unfold segmentHtmlV2
  rw [← hmain]
  rw [List.map_map]
  have : (segmentBatchesV2 body).enum.map
        (Segment.originalHtml ∘ fun p : Nat × List XNode =>
          ({ id := fileHref ++ "::" ++ toString p.1, fileHref := fileHref,
             batchIndex := p.1, originalHtml := serializeForest p.2,
             translatedHtml := "", status := SegmentStatus.PENDING,
             retryCount := 0, error := none } : Segment))
      = (segmentBatchesV2 body).enum.map (fun p => serializeForest p.2) := rfl
  rw [this]
  rw [show (fun p : Nat × List XNode => serializeForest p.2)
        = (serializeForest ∘ Prod.snd) from rfl]
  rw [← List.map_map, List.enum_map_snd]

/-! ## Translator client and tag integrity (`src/services/geminiService.ts`)

`validateIntegrity` (lines 172–199) extracts the sorted list of matches
of the global regex `/<\/?\w+/g` from both strings and compares them
element-wise; `translateHtml` (lines 102–170) trims the model response,
rejects an empty one, strips code fences, and fails with the integrity
error unless the check passes.

The specification instead defines `tags(s)` with the pattern
`</?[A-Za-z][A-Za-z0-9]*`.  Both extractions are embedded as the same
left-to-right maximal-match scanner instantiated at the two character
classes, and the claim is settled by a simulation between the two
scanner runs. -/

/-- JS `\w`: ASCII letter, digit or underscore. -/
def isWordChar (c : Char) : Bool := c.isAlpha || c.isDigit || c == '_'

/-- `[A-Za-z0-9]`: the continuation class of the specification's tag
token pattern. -/
def isAlphaNum (c : Char) : Bool := c.isAlpha || c.isDigit

/-- A tag token `</?name`: the optional closing slash and the name. -/
structure Tok where
  slash : Bool
  name : List Char
deriving DecidableEq, Repr

/-- State of the left-to-right regex scan: outside any candidate, just
after `<`, just after `</`, or inside a name. -/
inductive ScanSt where
  | outside
  | afterLt
  | afterLtSlash
  | inTok (slash : Bool) (name : List Char)
deriving DecidableEq, Repr

/-- Left-to-right scan for non-overlapping maximal matches of
`</?SC*` where `S` is the start class and `C` the continuation class —
exactly how a JS global regex of that shape advances through a string
(a failed candidate resumes at the next position; a finished match
resumes at the first unmatched character). -/
def scanGo (start cont : Char → Bool) : ScanSt → List Char → List Tok
  | st, [] =>
    (match st with
     | .inTok sl name => [⟨sl, name⟩]
     | _ => [])
  | st, c :: cs =>
    (match st with
     | .outside =>
        scanGo start cont (if c == '<' then .afterLt else .outside) cs
     | .afterLt =>
        if start c then scanGo start cont (.inTok false [c]) cs
        else if c == '/' then scanGo start cont .afterLtSlash cs
        else if c == '<' then scanGo start cont .afterLt cs
        else scanGo start cont .outside cs
     | .afterLtSlash =>
        if start c then scanGo start cont (.inTok true [c]) cs
        else if c == '<' then scanGo start cont .afterLt cs
        else scanGo start cont .outside cs
     | .inTok sl name =>
        if cont c then scanGo start cont (.inTok sl (name ++ [c])) cs
        else ⟨sl, name⟩ :: scanGo start cont (if c == '<' then .afterLt else .outside) cs)

theorem scanGo_nil_inTok (start cont : Char → Bool) (sl : Bool) (name : List Char) :
    scanGo start cont (ScanSt.inTok sl name) [] = [⟨sl, name⟩] := rfl

theorem scanGo_cons_outside (start cont : Char → Bool) (c : Char) (cs : List Char) :
    scanGo start cont ScanSt.outside (c :: cs)
      = scanGo start cont (if c == '<' then ScanSt.afterLt else ScanSt.outside) cs := rfl

theorem scanGo_cons_afterLt (start cont : Char → Bool) (c : Char) (cs : List Char) :
    scanGo start cont ScanSt.afterLt (c :: cs)
      = (if start c then scanGo start cont (ScanSt.inTok false [c]) cs
         else if c == '/' then scanGo start cont ScanSt.afterLtSlash cs
         else if c == '<' then scanGo start cont ScanSt.afterLt cs
         else scanGo start cont ScanSt.outside cs) := rfl

theorem scanGo_cons_afterLtSlash (start cont : Char → Bool) (c : Char) (cs : List Char) :
    scanGo start cont ScanSt.afterLtSlash (c :: cs)
      = (if start c then scanGo start cont (ScanSt.inTok true [c]) cs
         else if c == '<' then scanGo start cont ScanSt.afterLt cs
         else scanGo start cont ScanSt.outside cs) := rfl

theorem scanGo_cons_inTok (start cont : Char → Bool) (sl : Bool) (name : List Char)
    (c : Char) (cs : List Char) :
    scanGo start cont (ScanSt.inTok sl name) (c :: cs)
      = (if cont c then scanGo start cont (ScanSt.inTok sl (name ++ [c])) cs
         else ⟨sl, name⟩ ::
           scanGo start cont (if c == '<' then ScanSt.afterLt else ScanSt.outside) cs) := rfl

/-- The code's token scan: the matches of `/<\/?\w+/g`. -/
def codeScan (s : String) : List Tok :=
  scanGo isWordChar isWordChar ScanSt.outside s.data

/-- The specification's token scan: the maximal substrings matching
`</?[A-Za-z][A-Za-z0-9]*`. -/
def specScan (s : String) : List Tok :=
  scanGo Char.isAlpha isAlphaNum ScanSt.outside s.data

/-- The matched substring of a token. -/
def renderTok (t : Tok) : String :=
  String.mk ('<' :: (if t.slash then '/' :: t.name else t.name))

/-- `getTags` (lines 173–176): the match list of `/<\/?\w+/g` (the
`.sort()` is applied below, inside the comparison). -/
def getTags (s : String) : List String := (codeScan s).map renderTok

/-- JS string comparison as used by `Array.prototype.sort()`:
lexicographic on code units. -/
def charListLe : List Char → List Char → Bool
  | [], _ => true
  | _ :: _, [] => false
  | a :: l₁, b :: l₂ => a.toNat < b.toNat || (a.toNat == b.toNat && charListLe l₁ l₂)

/-- JS default sort order on strings. -/
def strLeB (a b : String) : Bool := charListLe a.data b.data

/-- `validateIntegrity` (lines 172–199): sort both match lists with the
JS default comparator, compare lengths and then each position — i.e.
equality of the sorted match lists. -/
def validateIntegrity (original translated : String) : Bool :=
  decide (List.insertionSort (fun a b => strLeB a b = true) (getTags original)
      = List.insertionSort (fun a b => strLeB a b = true) (getTags translated))

/-- The failures of `translateHtml` downstream of a received response. -/
inductive TranslateError where
  | emptyResponse
  | integrityMismatch
deriving DecidableEq, Repr

/-- The cleanup of `translateHtml` (line 153): strip a leading
```` ```html ```` and a trailing ```` ``` ````, then trim. -/
def stripFences (s : String) : String :=
  let s1 := if listStartsWith s.data "```html".data then String.mk (s.data.drop 7) else s
  let s2 :=
    if listStartsWith s1.data.reverse ("```".data.reverse) then
      String.mk (s1.data.take (s1.data.length - 3))
    else s1
  jsTrim s2

/-- `translateHtml` (lines 102–170) from the point the model response
text arrives (transport, timeout and API-key failures upstream of the
response are external): trim the text, fail on a missing or empty
response, strip fences, and return the cleaned translation only if
`validateIntegrity` accepts it, failing with the integrity error
otherwise. -/
def translateHtml (html : String) (responseText : Option String) :
    Except TranslateError String :=
  match responseText.map jsTrim with
  | none => Except.error TranslateError.emptyResponse
  | some t =>
    if t == "" then Except.error TranslateError.emptyResponse
    else
      let cleanHtml := stripFences t
      if validateIntegrity html cleanHtml then Except.ok cleanHtml
      else Except.error TranslateError.integrityMismatch

/-- The specification's `tags(s)`: the sorted multiset of maximal
substrings matching `</?[A-Za-z][A-Za-z0-9]*`, represented as the
sorted list of matched substrings. -/
def specTags (s : String) : List String :=
  List.insertionSort (fun a b => strLeB a b = true) ((specScan s).map renderTok)

/-! ### The JS sort order is total, transitive and antisymmetric -/

theorem charListLe_total : ∀ a b : List Char,
    charListLe a b = true ∨ charListLe b a = true := by
  intro a
  induction a with
  | nil => intro b; exact Or.inl rfl
  | cons x l ih =>
      intro b
      cases b with
      | nil => exact Or.inr rfl
      | cons y m =>
          simp only [charListLe, Bool.or_eq_true, Bool.and_eq_true, decide_eq_true_eq,
            beq_iff_eq]
          rcases Nat.lt_trichotomy x.toNat y.toNat with h | h | h
          · exact Or.inl (Or.inl h)
          · rcases ih m with hm | hm
            · exact Or.inl (Or.inr ⟨h, hm⟩)
            · exact Or.inr (Or.inr ⟨h.symm, hm⟩)
          · exact Or.inr (Or.inl h)

theorem charListLe_trans : ∀ a b c : List Char,
    charListLe a b = true → charListLe b c = true → charListLe a c = true := by
  intro a
  induction a with
  | nil => intro b c _ _; rfl
  | cons x l ih =>
      intro b c hab hbc
      cases b with
      | nil => simp [charListLe] at hab
      | cons y m =>
          cases c with
          | nil => simp [charListLe] at hbc
          | cons z k =>
              simp only [charListLe, Bool.or_eq_true, Bool.and_eq_true, decide_eq_true_eq,
                beq_iff_eq] at hab hbc ⊢
              rcases hab with h1 | ⟨h1, h1le⟩ <;> rcases hbc with h2 | ⟨h2, h2le⟩
              · exact Or.inl (Nat.lt_trans h1 h2)
              · exact Or.inl (h2 ▸ h1)
              · exact Or.inl (h1 ▸ h2)
              · exact Or.inr ⟨h1.trans h2, ih m k h1le h2le⟩

theorem charListLe_antisymm : ∀ a b : List Char,
    charListLe a b = true → charListLe b a = true → a = b := by
  intro a
  induction a with
  | nil =>
      intro b _ hba
      cases b with
      | nil => rfl
      | cons y m => simp [charListLe] at hba
  | cons x l ih =>
      intro b hab hba
      cases b with
      | nil => simp [charListLe] at hab
      | cons y m =>
          simp only [charListLe, Bool.or_eq_true, Bool.and_eq_true, decide_eq_true_eq,
            beq_iff_eq] at hab hba
          rcases hab with h1 | ⟨h1, h1le⟩ <;> rcases hba with h2 | ⟨h2, h2le⟩
          · exact absurd (Nat.lt_trans h1 h2) (Nat.lt_irrefl _)
          · exact absurd (h2 ▸ h1) (Nat.lt_irrefl _)
          · exact absurd (h1 ▸ h2) (Nat.lt_irrefl _)
          · have hx : x = y := Char.eq_of_val_eq (UInt32.toNat.inj h1)
            rw [hx, ih m h1le h2le]

instance : IsTotal String (fun a b => strLeB a b = true) :=
  ⟨fun a b => charListLe_total a.data b.data⟩

instance : IsTrans String (fun a b => strLeB a b = true) :=
  ⟨fun a b c => charListLe_trans a.data b.data c.data⟩

instance : IsAntisymm String (fun a b => strLeB a b = true) :=
  ⟨fun a b h1 h2 => by
    have hd := charListLe_antisymm a.data b.data h1 h2
    cases a
    cases b
    simp only at hd
    rw [hd]⟩

/-! ### Character-class facts -/

theorem alnum_word (c : Char) (h : isAlphaNum c = true) : isWordChar c = true := by
  simp only [isAlphaNum, Bool.or_eq_true] at h
  simp only [isWordChar, Bool.or_eq_true]
  tauto

theorem alpha_word (c : Char) (h : c.isAlpha = true) : isWordChar c = true := by
  simp [isWordChar, h]

theorem alpha_alnum (c : Char) (h : c.isAlpha = true) : isAlphaNum c = true := by
  simp [isAlphaNum, h]

theorem word_ne_lt (c : Char) (h : isWordChar c = true) : (c == '<') = false := by
  cases hc : c == '<'
  · rfl
  · rw [beq_iff_eq] at hc
    subst hc
    exact absurd h (by decide)

theorem word_ne_slash (c : Char) (h : isWordChar c = true) : (c == '/') = false := by
  cases hc : c == '/'
  · rfl
  · rw [beq_iff_eq] at hc
    subst hc
    exact absurd h (by decide)

/-! ### `takeWhile` helpers -/

theorem takeWhile_all {p : Char → Bool} :
    ∀ l : List Char, l.all p = true → l.takeWhile p = l := by
  intro l
  induction l with
  | nil => intro _; rfl
  | cons a t ih =>
      intro h
      rw [List.all_cons, Bool.and_eq_true] at h
      rw [List.takeWhile_cons, if_pos h.1, ih h.2]

theorem takeWhile_append_all {p : Char → Bool} :
    ∀ l l2 : List Char, l.all p = true → (l ++ l2).takeWhile p = l ++ l2.takeWhile p := by
  intro l
  induction l with
  | nil => intro l2 _; rfl
  | cons a t ih =>
      intro l2 h
      rw [List.all_cons, Bool.and_eq_true] at h
      rw [List.cons_append, List.takeWhile_cons, if_pos h.1, ih l2 h.2, List.cons_append]

theorem takeWhile_append_not_all {p : Char → Bool} :
    ∀ l l2 : List Char, l.all p = false → (l ++ l2).takeWhile p = l.takeWhile p := by
  intro l
  induction l with
  | nil => intro l2 h; simp at h
  | cons a t ih =>
      intro l2 h
      rw [List.all_cons] at h
      cases ha : p a
      · rw [List.cons_append, List.takeWhile_cons, if_neg (by simp [ha]),
          List.takeWhile_cons, if_neg (by simp [ha])]
      · rw [ha, Bool.true_and] at h
        rw [List.cons_append, List.takeWhile_cons, if_pos ha, List.takeWhile_cons,
          if_pos ha, ih l2 h]

/-! ### The per-token truncation from code tokens to spec tokens -/

/-- A code-scan name is clean when it is itself a spec token name: it
starts with a letter and continues with letters and digits. -/
def cleanName (name : List Char) : Bool :=
  (match name with
   | [] => false
   | h :: _ => h.isAlpha) && name.all isAlphaNum

/-- The spec token determined by a code token: keep the slash and
truncate the name at the first character outside `[A-Za-z0-9]`; no spec
token at all when the name does not start with a letter. -/
def toSpecTok (t : Tok) : Option Tok :=
  match t.name with
  | [] => none
  | h :: _ => if h.isAlpha then some ⟨t.slash, t.name.takeWhile isAlphaNum⟩ else none

theorem cleanName_singleton (c : Char) : cleanName [c] = c.isAlpha := by
  cases hc : c.isAlpha
  · simp [cleanName, hc]
  · simp [cleanName, hc, alpha_alnum c hc]

theorem cleanName_append (name : List Char) (c : Char) (hne : name ≠ []) :
    cleanName (name ++ [c]) = (cleanName name && isAlphaNum c) := by
  cases name with
  | nil => exact absurd rfl hne
  | cons h t =>
      simp only [cleanName, List.cons_append, List.all_cons, List.all_append, List.all_cons,
        List.all_nil, Bool.and_true]
      cases h.isAlpha <;> cases isAlphaNum h <;> cases t.all isAlphaNum <;>
        cases isAlphaNum c <;> rfl

theorem toSpecTok_clean (sl : Bool) (name : List Char) (h : cleanName name = true) :
    toSpecTok ⟨sl, name⟩ = some ⟨sl, name⟩ := by
  cases name with
  | nil => simp [cleanName] at h
  | cons c t =>
      simp only [cleanName, Bool.and_eq_true] at h
      simp only [toSpecTok, if_pos h.1]
      rw [takeWhile_all _ h.2]

theorem toSpecTok_clean_stop (sl : Bool) (name : List Char) (c : Char)
    (hcl : cleanName name = true) (hc : isAlphaNum c = false) :
    toSpecTok ⟨sl, name ++ [c]⟩ = some ⟨sl, name⟩ := by
  cases name with
  | nil => simp [cleanName] at hcl
  | cons h t =>
      simp only [cleanName, Bool.and_eq_true] at hcl
      simp only [toSpecTok, List.cons_append, if_pos hcl.1]
      rw [← List.cons_append, takeWhile_append_all _ _ hcl.2, List.takeWhile_cons,
        if_neg (by simp [hc])]
      simp

theorem toSpecTok_append_dirty (sl : Bool) (name : List Char) (c : Char)
    (hne : name ≠ []) (hd : cleanName name = false) :
    toSpecTok ⟨sl, name ++ [c]⟩ = toSpecTok ⟨sl, name⟩ := by
  cases name with
  | nil => exact absurd rfl hne
  | cons h t =>
      by_cases hh : h.isAlpha = true
      · have hall : (h :: t).all isAlphaNum = false := by
          by_cases hall : (h :: t).all isAlphaNum = true
          · exfalso
            have : cleanName (h :: t) = true := by simp [cleanName, hh, hall]
            rw [hd] at this
            simp at this
          · simpa using hall
        simp only [toSpecTok, List.cons_append, if_pos hh]
        rw [← List.cons_append, takeWhile_append_not_all _ _ hall]
      · simp [toSpecTok, hh]

/-! ### Simulation between the code scan and the spec scan -/

/-- The spec-scanner state tracking a code-scanner state: identical
outside a token; inside a token, the spec scanner is still inside only
while the accumulated name is clean, and has returned to the outside
otherwise. -/
def specStOf : ScanSt → ScanSt
  | .inTok sl name => if cleanName name then .inTok sl name else .outside
  | st => st

/-- The spec tokens already emitted by the spec scanner while the code
scanner is still inside its current token. -/
def pendToks : ScanSt → List Tok
  | .inTok sl name => if cleanName name then [] else (toSpecTok ⟨sl, name⟩).toList
  | _ => []

/-- Reachable scanner states carry a non-empty name. -/
def stOk : ScanSt → Prop
  | .inTok _ name => name ≠ []
  | _ => True

/-- The simulation: the spec tokens of the code scan's remaining output
are the spec scanner's pending token followed by its remaining output. -/
theorem scanGo_sim : ∀ (cs : List Char) (st : ScanSt), stOk st →
    (scanGo isWordChar isWordChar st cs).filterMap toSpecTok
      = pendToks st ++ scanGo Char.isAlpha isAlphaNum (specStOf st) cs := by
  intro cs
  induction cs with
  | nil =>
      intro st hok
      cases st with
      | outside => rfl
      | afterLt => rfl
      | afterLtSlash => rfl
      | inTok sl name =>
          by_cases hcl : cleanName name = true
          · simp [pendToks, specStOf, if_pos hcl, toSpecTok_clean sl name hcl,
              scanGo_nil_inTok]
          · simp only [pendToks, specStOf, if_neg hcl]
            cases htok : toSpecTok ⟨sl, name⟩ <;>
              simp [htok, Option.toList, scanGo_nil_inTok, scanGo]
  | cons c cs ih =>
      intro st hok
      cases st with
      | outside =>
          simp only [specStOf, pendToks, List.nil_append]
          rw [scanGo_cons_outside, scanGo_cons_outside]
          by_cases hc : (c == '<') = true
          · rw [if_pos hc]
            simpa [pendToks, specStOf] using ih ScanSt.afterLt trivial
          · rw [if_neg hc]
            simpa [pendToks, specStOf] using ih ScanSt.outside trivial
      | afterLt =>
          simp only [specStOf, pendToks, List.nil_append]
          rw [scanGo_cons_afterLt, scanGo_cons_afterLt]
          by_cases ha : c.isAlpha = true
          · rw [if_pos (alpha_word c ha), if_pos ha]
            have h1 := ih (ScanSt.inTok false [c]) (by simp [stOk])
            simpa [pendToks, specStOf, cleanName_singleton, ha] using h1
          · have hna : c.isAlpha = false := by simpa using ha
            rw [if_neg ha]
            by_cases hw : isWordChar c = true
            · rw [if_pos hw, if_neg (by simp [word_ne_slash c hw]),
                if_neg (by simp [word_ne_lt c hw])]
              have h1 := ih (ScanSt.inTok false [c]) (by simp [stOk])
              simpa [pendToks, specStOf, cleanName_singleton, hna, toSpecTok, Option.toList]
                using h1
            · rw [if_neg hw]
              by_cases hsl : (c == '/') = true
              · rw [if_pos hsl, if_pos hsl]
                simpa [pendToks, specStOf] using ih ScanSt.afterLtSlash trivial
              · rw [if_neg hsl, if_neg hsl]
                by_cases hlt : (c == '<') = true
                · rw [if_pos hlt, if_pos hlt]
                  simpa [pendToks, specStOf] using ih ScanSt.afterLt trivial
                · rw [if_neg hlt, if_neg hlt]
                  simpa [pendToks, specStOf] using ih ScanSt.outside trivial
      | afterLtSlash =>
          simp only [specStOf, pendToks, List.nil_append]
          rw [scanGo_cons_afterLtSlash, scanGo_cons_afterLtSlash]
          by_cases ha : c.isAlpha = true
          · rw [if_pos (alpha_word c ha), if_pos ha]
            have h1 := ih (ScanSt.inTok true [c]) (by simp [stOk])
            simpa [pendToks, specStOf, cleanName_singleton, ha] using h1
          · have hna : c.isAlpha = false := by simpa using ha
            rw [if_neg ha]
            by_cases hw : isWordChar c = true
            · rw [if_pos hw, if_neg (by simp [word_ne_lt c hw])]
              have h1 := ih (ScanSt.inTok true [c]) (by simp [stOk])
              simpa [pendToks, specStOf, cleanName_singleton, hna, toSpecTok, Option.toList]
                using h1
            · rw [if_neg hw]
              by_cases hlt : (c == '<') = true
              · rw [if_pos hlt, if_pos hlt]
                simpa [pendToks, specStOf] using ih ScanSt.afterLt trivial
              · rw [if_neg hlt, if_neg hlt]
                simpa [pendToks, specStOf] using ih ScanSt.outside trivial
      | inTok sl name =>
          have hne : name ≠ [] := hok
          simp only [specStOf, pendToks]
          by_cases hcl : cleanName name = true
          · -- the spec scanner is inside the same token
            rw [if_pos hcl, List.nil_append, if_pos hcl, scanGo_cons_inTok,
              scanGo_cons_inTok]
            by_cases hal : isAlphaNum c = true
            · rw [if_pos (alnum_word c hal), if_pos hal]
              have hcl2 : cleanName (name ++ [c]) = true := by
                rw [cleanName_append name c hne, hcl, hal]
                rfl
              have h1 := ih (ScanSt.inTok sl (name ++ [c])) (by simp [stOk])
              simpa [pendToks, specStOf, hcl2] using h1
            · have hna : isAlphaNum c = false := by simpa using hal
              by_cases hw : isWordChar c = true
              · -- an underscore: code continues, spec emits and leaves
                rw [if_pos hw, if_neg hal]
                have hd2 : cleanName (name ++ [c]) = false := by
                  rw [cleanName_append name c hne, hna, Bool.and_false]
                have h1 := ih (ScanSt.inTok sl (name ++ [c])) (by simp [stOk])
                rw [h1]
                simp only [pendToks, specStOf, if_neg (by simp [hd2] :
                    ¬cleanName (name ++ [c]) = true),
                  toSpecTok_clean_stop sl name c hcl hna, Option.toList]
                rw [if_neg (by simp [word_ne_lt c hw])]
                simp
              · -- both emit the same token
                rw [if_neg hw, if_neg hal]
                rw [List.filterMap_cons, toSpecTok_clean sl name hcl]
                by_cases hlt : (c == '<') = true
                · rw [if_pos hlt]
                  simpa [pendToks, specStOf] using ih ScanSt.afterLt trivial
                · rw [if_neg hlt]
                  simpa [pendToks, specStOf] using ih ScanSt.outside trivial
          · -- the spec scanner has already left the token
            rw [if_neg hcl, if_neg hcl, scanGo_cons_inTok, scanGo_cons_outside]
            have hclf : cleanName name = false := by simpa using hcl
            by_cases hw : isWordChar c = true
            · rw [if_pos hw]
              have hd2 : cleanName (name ++ [c]) = false := by
                rw [cleanName_append name c hne, hclf, Bool.false_and]
              have h1 := ih (ScanSt.inTok sl (name ++ [c])) (by simp [stOk])
              rw [h1]
              simp only [pendToks, specStOf, if_neg (by simp [hd2] :
                  ¬cleanName (name ++ [c]) = true),
                toSpecTok_append_dirty sl name c hne hclf]
              rw [if_neg (by simp [word_ne_lt c hw])]
            · rw [if_neg hw]
              rw [List.filterMap_cons]
              by_cases hlt : (c == '<') = true
              · rw [if_pos hlt]
                have h1 := ih ScanSt.afterLt trivial
                cases htok : toSpecTok ⟨sl, name⟩ <;>
                  simp [htok, h1, pendToks, specStOf, Option.toList]
              · rw [if_neg hlt]
                have h1 := ih ScanSt.outside trivial
                cases htok : toSpecTok ⟨sl, name⟩ <;>
                  simp [htok, h1, pendToks, specStOf, Option.toList]

/-- The spec scan is the per-token truncation of the code scan. -/
theorem specScan_eq_filterMap_codeScan (s : String) :
    specScan s = (codeScan s).filterMap toSpecTok := by
  unfold specScan codeScan
  rw [scanGo_sim s.data ScanSt.outside trivial]
  rfl

/-- Every token of the code scan has a non-empty name made of word
characters. -/
theorem scanGo_tokens_word : ∀ (cs : List Char) (st : ScanSt),
    (∀ sl name, st = ScanSt.inTok sl name → name ≠ [] ∧ name.all isWordChar = true) →
    ∀ t ∈ scanGo isWordChar isWordChar st cs,
      t.name ≠ [] ∧ t.name.all isWordChar = true := by
  intro cs
  induction cs with
  | nil =>
      intro st hinv t ht
      cases st with
      | outside => simp [scanGo] at ht
      | afterLt => simp [scanGo] at ht
      | afterLtSlash => simp [scanGo] at ht
      | inTok sl name =>
          rw [scanGo_nil_inTok, List.mem_singleton] at ht
          subst ht
          exact hinv sl name rfl
  | cons c cs ih =>
      intro st hinv t ht
      cases st with
      | outside =>
          rw [scanGo_cons_outside] at ht
          by_cases hc : (c == '<') = true
          · rw [if_pos hc] at ht
            exact ih ScanSt.afterLt (by intro sl name h; cases h) t ht
          · rw [if_neg hc] at ht
            exact ih ScanSt.outside (by intro sl name h; cases h) t ht
      | afterLt =>
          rw [scanGo_cons_afterLt] at ht
          by_cases hw : isWordChar c = true
          · rw [if_pos hw] at ht
            refine ih (ScanSt.inTok false [c]) ?_ t ht
            intro sl name h
            injection h with h1 h2
            subst h2
            exact ⟨by simp, by simp [hw]⟩
          · rw [if_neg hw] at ht
            by_cases hsl : (c == '/') = true
            · rw [if_pos hsl] at ht
              exact ih ScanSt.afterLtSlash (by intro sl name h; cases h) t ht
            · rw [if_neg hsl] at ht
              by_cases hlt : (c == '<') = true
              · rw [if_pos hlt] at ht
                exact ih ScanSt.afterLt (by intro sl name h; cases h) t ht
              · rw [if_neg hlt] at ht
                exact ih ScanSt.outside (by intro sl name h; cases h) t ht
      | afterLtSlash =>
          rw [scanGo_cons_afterLtSlash] at ht
          by_cases hw : isWordChar c = true
          · rw [if_pos hw] at ht
            refine ih (ScanSt.inTok true [c]) ?_ t ht
            intro sl name h
            injection h with h1 h2
            subst h2
            exact ⟨by simp, by simp [hw]⟩
          · rw [if_neg hw] at ht
            by_cases hlt : (c == '<') = true
            · rw [if_pos hlt] at ht
              exact ih ScanSt.afterLt (by intro sl name h; cases h) t ht
            · rw [if_neg hlt] at ht
              exact ih ScanSt.outside (by intro sl name h; cases h) t ht
      | inTok sl name =>
          obtain ⟨hne, hall⟩ := hinv sl name rfl
          rw [scanGo_cons_inTok] at ht
          by_cases hw : isWordChar c = true
          · rw [if_pos hw] at ht
            refine ih (ScanSt.inTok sl (name ++ [c])) ?_ t ht
            intro sl2 name2 h
            injection h with h1 h2
            subst h2
            exact ⟨by simp, by simp [List.all_append, hall, hw]⟩
          · rw [if_neg hw, List.mem_cons] at ht
            rcases ht with ht | ht
            · subst ht
              exact ⟨hne, hall⟩
            · by_cases hlt : (c == '<') = true
              · rw [if_pos hlt] at ht
                exact ih ScanSt.afterLt (by intro sl2 name2 h; cases h) t ht
              · rw [if_neg hlt] at ht
                exact ih ScanSt.outside (by intro sl2 name2 h; cases h) t ht

/-- The per-token truncation expressed on the matched substring: decode
the optional slash and the name, check the letter start, truncate at the
first character outside `[A-Za-z0-9]`. -/
def toSpecChars : List Char → Option String
  | [] => none
  | c0 :: rest =>
      if c0 == '<' then
        (match rest with
         | [] => none
         | c1 :: rest2 =>
            if c1 == '/' then
              (match rest2 with
               | [] => none
               | h :: _ =>
                  if h.isAlpha then
                    some (String.mk ('<' :: '/' :: List.takeWhile isAlphaNum rest2))
                  else none)
            else
              if c1.isAlpha then some (String.mk ('<' :: List.takeWhile isAlphaNum rest))
              else none)
      else none

/-- `toSpecChars` on a rendered string. -/
def toSpecStr (s : String) : Option String := toSpecChars s.data

/-- On rendered code tokens (non-empty word-character names), the
string-level truncation agrees with the token-level one. -/
theorem toSpecStr_renderTok (t : Tok) (hne : t.name ≠ [])
    (hword : t.name.all isWordChar = true) :
    toSpecStr (renderTok t) = Option.map renderTok (toSpecTok t) := by
  obtain ⟨sl, name⟩ := t
  cases name with
  | nil => exact absurd rfl hne
  | cons h rest =>
      have hhw : isWordChar h = true := by
        rw [List.all_cons, Bool.and_eq_true] at hword
        exact hword.1
      cases sl
      · show toSpecChars ('<' :: h :: rest) = _
        simp only [toSpecChars, if_pos (show ('<' == '<') = true from rfl),
          if_neg (show ¬((h == '/') = true) by simp [word_ne_slash h hhw])]
        by_cases hh : h.isAlpha = true
        · rw [if_pos hh]
          simp only [toSpecTok, if_pos hh, Option.map_some']
          rfl
        · rw [if_neg hh]
          simp only [toSpecTok, if_neg hh, Option.map_none']
      · show toSpecChars ('<' :: '/' :: h :: rest) = _
        simp only [toSpecChars, if_pos (show ('<' == '<') = true from rfl),
          if_pos (show ('/' == '/') = true from rfl)]
        by_cases hh : h.isAlpha = true
        · rw [if_pos hh]
          simp only [toSpecTok, if_pos hh, Option.map_some']
          rfl
        · rw [if_neg hh]
          simp only [toSpecTok, if_neg hh, Option.map_none']

/-- The rendered spec tokens of a string are obtained from its rendered
code tokens (the `getTags` matches) by the string-level truncation. -/
theorem specTags_map_eq (s : String) :
    (specScan s).map renderTok = (getTags s).filterMap toSpecStr := by
  unfold getTags
  rw [specScan_eq_filterMap_codeScan, List.filterMap_map, List.map_filterMap]
  apply List.filterMap_congr
  intro t ht
  have hshape := scanGo_tokens_word s.data ScanSt.outside
    (by intro sl name h; cases h) t ht
  exact (toSpecStr_renderTok t hshape.1 hshape.2).symm

/-- Passing `validateIntegrity` (the code's check, on the coarser
pattern `/<\/?\w+/g`) implies equality of the specification's tag
multisets (pattern `</?[A-Za-z][A-Za-z0-9]*`). -/
theorem validateIntegrity_specTags (a b : String)
    (hval : validateIntegrity a b = true) : specTags a = specTags b := by
  have hsort : List.insertionSort (fun x y => strLeB x y = true) (getTags a)
      = List.insertionSort (fun x y => strLeB x y = true) (getTags b) :=
    of_decide_eq_true hval
  have hperm : (getTags a).Perm (getTags b) := by
    have p1 := List.perm_insertionSort (fun x y => strLeB x y = true) (getTags a)
    have p2 := List.perm_insertionSort (fun x y => strLeB x y = true) (getTags b)
    exact p1.symm.trans (hsort ▸ p2)
  have h2 : ((specScan a).map renderTok).Perm ((specScan b).map renderTok) := by
    rw [specTags_map_eq, specTags_map_eq]
    exact hperm.filterMap toSpecStr
  unfold specTags
  have p1 := List.perm_insertionSort (fun x y => strLeB x y = true)
    ((specScan a).map renderTok)
  have p2 := List.perm_insertionSort (fun x y => strLeB x y = true)
    ((specScan b).map renderTok)
  exact List.eq_of_perm_of_sorted (p1.trans (h2.trans p2.symm))
    (List.sorted_insertionSort _ _) (List.sorted_insertionSort _ _)

/-- C1: `translateHtml` succeeds (returns the cleaned translation) only
if the sorted multiset of tag tokens of the specification's pattern
`</?[A-Za-z][A-Za-z0-9]*` extracted from the original equals the one
extracted from the returned translation; and whenever the response
yields a translation at all (it trims to a non-empty text, so a cleaned
translation exists) whose spec tag multiset differs from the original's,
the call fails with exactly the integrity-mismatch error. -/
theorem translate_succeeds_only_if_tags_match (html : String)
    (responseText : Option String) (translated : String) :
    (translateHtml html responseText = Except.ok translated →
        specTags html = specTags translated) ∧
    (∀ t, responseText = some t → jsTrim t ≠ "" →
        specTags html ≠ specTags (stripFences (jsTrim t)) →
        translateHtml html responseText
          = Except.error TranslateError.integrityMismatch) := by
  constructor
  · intro hok
    have hval : validateIntegrity html translated = true := by
      unfold translateHtml at hok
      cases responseText with
      | none => exact absurd hok (by simp)
      | some t0 =>
          simp only [Option.map_some'] at hok
          split at hok
          · exact absurd hok (by simp)
          · split at hok
            · rename_i hv
              have ht : stripFences (jsTrim t0) = translated := by
                injection hok
              rw [← ht]
              exact hv
            · exact absurd hok (by simp)
    exact validateIntegrity_specTags html translated hval
  · intro t hresp hne hmis
    subst hresp
    unfold translateHtml
    simp only [Option.map_some']
    split
    · rename_i hemp
      exact absurd (by simpa using hemp) hne
    · split
      · rename_i hv
        exact absurd (validateIntegrity_specTags _ _ hv) hmis
      · rfl

/-- Witness for `translate_succeeds_only_if_tags_match`: a concrete
successful translation with equal spec tag multisets, and a concrete
tag-dropping translation rejected with exactly the integrity error. -/
theorem translate_succeeds_only_if_tags_match_witness :
    specTags "<p>Hi</p>" = specTags "<p>X</p>" ∧
    translateHtml "<p>Hi <b>t</b>.</p>" (some "<p>X.</p>")
      = Except.error TranslateError.integrityMismatch :=
  ⟨(translate_succeeds_only_if_tags_match "<p>Hi</p>" (some "<p>X</p>") "<p>X</p>").1 rfl,
   (translate_succeeds_only_if_tags_match "<p>Hi <b>t</b>.</p>" (some "<p>X.</p>") "").2
     "<p>X.</p>" rfl (by decide) (by decide)⟩

end Mutarjim
